import Mathlib

/- A shallow embedding of the zmb3/grep command-line search utility
   (grep.go) together with theorems about its line scanner, its input
   resolver and its exit-code behaviour.

   Go strings are modelled as lists of byte values (`List Nat`); this lets
   the model represent byte sequences that are not valid UTF-8, which the
   scanner's binary-detection branch depends on.  The Go standard-library
   string functions the scanner calls are modelled byte-for-byte where the
   byte-level behaviour matters (`utf8.ValidString`, UTF-8 decoding and
   encoding as performed by `strings.Map`), and restricted to their ASCII
   rows where the full Unicode tables are external data: `unicode.ToLower`
   is modelled by the ASCII simple case mapping (identity on every other
   rune) and `strings.TrimSpace` by the ASCII white-space set.  No theorem
   below depends on the non-ASCII rows of those tables. -/

namespace Grep

/-- The ASCII white-space bytes recognised by `strings.TrimSpace`
(tab, newline, vertical tab, form feed, carriage return, space). -/
def isAsciiSpace (b : Nat) : Bool :=
  b == 9 || b == 10 || b == 11 || b == 12 || b == 13 || b == 32

/-- Model of `strings.TrimSpace`: remove leading and trailing white-space
bytes.  (Go also trims the non-ASCII Unicode spaces via `unicode.IsSpace`;
that table is external data and no claim depends on it.) -/
def trimSpace (s : List Nat) : List Nat :=
  ((s.dropWhile isAsciiSpace).reverse.dropWhile isAsciiSpace).reverse

/-- Model of `strings.Contains`: `goContains s sub` is true iff `sub`
occurs in `s` as a contiguous byte subsequence.  As in Go, the empty
pattern is contained in every string. -/
def goContains : List Nat → List Nat → Bool
  | [], sub => sub.isEmpty
  | a :: rest, sub => sub.isPrefixOf (a :: rest) || goContains rest sub

/-- The Unicode replacement character U+FFFD, which Go's UTF-8 decoder
produces for every invalid byte sequence (`utf8.RuneError`). -/
def replacementRune : Nat := 65533

/-- A UTF-8 continuation byte (0x80–0xBF). -/
def isCont (b : Nat) : Bool := 128 ≤ b && b ≤ 191

/-- Accepted range for the second byte of a three-byte UTF-8 sequence,
as in Go's `utf8.acceptRanges`: lead 0xE0 requires 0xA0–0xBF (no overlong
forms), lead 0xED requires 0x80–0x9F (no surrogates), every other lead
accepts any continuation byte. -/
def accept3 (b0 b1 : Nat) : Bool :=
  if b0 = 224 then 160 ≤ b1 && b1 ≤ 191
  else if b0 = 237 then 128 ≤ b1 && b1 ≤ 159
  else isCont b1

/-- Accepted range for the second byte of a four-byte UTF-8 sequence,
as in Go's `utf8.acceptRanges`: lead 0xF0 requires 0x90–0xBF (no overlong
forms), lead 0xF4 requires 0x80–0x8F (maximum scalar U+10FFFF), every
other lead accepts any continuation byte. -/
def accept4 (b0 b1 : Nat) : Bool :=
  if b0 = 240 then 144 ≤ b1 && b1 ≤ 191
  else if b0 = 244 then 128 ≤ b1 && b1 ≤ 143
  else isCont b1

/-- One step of Go's `utf8.DecodeRuneInString` on first byte `b0` with
remaining bytes `rest`: returns the decoded rune, whether the bytes
formed a valid encoding, and the bytes left over.  Every byte sequence
that does not begin a valid encoding (bad lead byte, rejected
continuation byte, or truncated input) yields `(RuneError, 1)` in Go —
here: the replacement rune, `false`, and `rest` unchanged (only `b0` is
consumed). -/
def decodeStep (b0 : Nat) (rest : List Nat) : Nat × Bool × List Nat :=
  if b0 < 128 then (b0, true, rest)
  else if b0 < 194 then (replacementRune, false, rest)
  else if b0 ≤ 223 then
    match rest with
    | b1 :: rest2 =>
      if isCont b1 then ((b0 % 32) * 64 + b1 % 64, true, rest2)
      else (replacementRune, false, b1 :: rest2)
    | [] => (replacementRune, false, [])
  else if b0 ≤ 239 then
    match rest with
    | b1 :: b2 :: rest3 =>
      if accept3 b0 b1 && isCont b2 then
        ((b0 % 16) * 4096 + (b1 % 64) * 64 + b2 % 64, true, rest3)
      else (replacementRune, false, b1 :: b2 :: rest3)
    | other => (replacementRune, false, other)
  else if b0 ≤ 244 then
    match rest with
    | b1 :: b2 :: b3 :: rest4 =>
      if accept4 b0 b1 && isCont b2 && isCont b3 then
        ((b0 % 8) * 262144 + (b1 % 64) * 4096 + (b2 % 64) * 64 + b3 % 64,
         true, rest4)
      else (replacementRune, false, b1 :: b2 :: b3 :: rest4)
    | other => (replacementRune, false, other)
  else (replacementRune, false, rest)

/-- Fuel-indexed validity check: one decode step per unit of fuel.  A
decode step consumes at least the first byte, so fuel equal to the byte
count always suffices (`utf8ValidAux_fuel` below); the zero-fuel
non-empty case is unreachable from `utf8Valid`. -/
def utf8ValidAux : Nat → List Nat → Bool
  | _, [] => true
  | 0, _ :: _ => false
  | fuel + 1, b0 :: rest =>
    (decodeStep b0 rest).2.1 && utf8ValidAux fuel (decodeStep b0 rest).2.2

/-- Model of `utf8.ValidString`: every decode step starts a valid UTF-8
encoding of a Unicode scalar value (no overlong forms, no surrogates, no
scalar above U+10FFFF). -/
def utf8Valid (s : List Nat) : Bool := utf8ValidAux s.length s

/-- Fuel-indexed decoding loop: one decode step per unit of fuel, with
fuel equal to the byte count always sufficient, as above. -/
def utf8DecodeAux : Nat → List Nat → List Nat
  | _, [] => []
  | 0, _ :: _ => []
  | fuel + 1, b0 :: rest =>
    (decodeStep b0 rest).1 :: utf8DecodeAux fuel (decodeStep b0 rest).2.2

/-- Model of the UTF-8 decoding loop performed by `for _, c := range s`
(and by `strings.Map`): the sequence of runes of `s`, where every byte
that does not begin a valid encoding yields U+FFFD and is consumed
alone. -/
def utf8Decode (s : List Nat) : List Nat := utf8DecodeAux s.length s

/-- Model of `utf8.EncodeRune` (as used by `strings.Map` to write one
mapped rune): surrogates and runes above U+10FFFF are encoded as the
replacement character. -/
def utf8EncodeRune (r : Nat) : List Nat :=
  if r < 128 then [r]
  else if r < 2048 then [192 + r / 64, 128 + r % 64]
  else if 55296 ≤ r ∧ r ≤ 57343 then [239, 191, 189]
  else if r < 65536 then [224 + r / 4096, 128 + (r / 64) % 64, 128 + r % 64]
  else if r ≤ 1114111 then
    [240 + r / 262144, 128 + (r / 4096) % 64, 128 + (r / 64) % 64, 128 + r % 64]
  else [239, 191, 189]

/-- Model of `unicode.ToLower` restricted to its ASCII row: maps A–Z to
a–z and is the identity elsewhere.  The full Unicode simple case-mapping
table is external data; no claim here depends on its non-ASCII rows. -/
def toLowerRune (r : Nat) : Nat :=
  if 65 ≤ r ∧ r ≤ 90 then r + 32 else r

/-- Model of `strings.ToLower`: the all-ASCII fast path lowers bytes in
place; otherwise `strings.Map(unicode.ToLower, s)` decodes the runes of
`s` (invalid sequences becoming U+FFFD), maps each through `toLowerRune`
and re-encodes them. -/
def goToLower (s : List Nat) : List Nat :=
  if s.all (fun b => b < 128) then s.map toLowerRune
  else ((utf8Decode s).map (fun r => utf8EncodeRune (toLowerRune r))).flatten

/-- The fixed sentinel text `"Binary File Matches"` substituted for a
matching line that is not valid UTF-8 (bytes of that ASCII string). -/
def sentinel : List Nat :=
  [66, 105, 110, 97, 114, 121, 32, 70, 105, 108, 101, 32, 77, 97, 116, 99,
   104, 101, 115]

/-- The scanner configuration derived from the `-i`, `-v` and `-x`
flags (the `-r` flag belongs to the resolver and is kept separate). -/
structure MatchConfig where
  ignoreCase : Bool
  invert : Bool
  wholeLine : Bool
deriving DecidableEq, Repr

/-- One reported line: the `match` struct of grep.go. -/
structure MatchRec where
  file : String
  line : List Nat
deriving DecidableEq, Repr

/-- The loop body of `scanFile` in grep.go, iterated over the lines the
`bufio.Scanner` delivers.  The `pattern` argument is threaded through the
iterations because the Go code mutates the `pattern` variable in place
when it lower-cases it; `mf` is the `matchFound` variable.  Returns the
list of records sent to the channel, in order, paired with the final
value of `matchFound`.  When a matching line is not valid UTF-8 the
sentinel record is emitted and the loop breaks. -/
def scanFileLoop (cfg : MatchConfig) (filename : String) :
    List (List Nat) → List Nat → Bool → List MatchRec × Bool
  | [], _, mf => ([], mf)
  | raw :: rest, pattern, mf =>
    let line := trimSpace raw
    let line := if cfg.ignoreCase then goToLower line else line
    let pattern := if cfg.ignoreCase then goToLower pattern else pattern
    let found := if cfg.wholeLine then line == pattern else goContains line pattern
    if found != cfg.invert then
      let binary := !(utf8Valid line)
      let line := if binary then sentinel else line
      if binary then ([⟨filename, line⟩], true)
      else
        let out := scanFileLoop cfg filename rest pattern true
        (⟨filename, line⟩ :: out.1, out.2)
    else
      scanFileLoop cfg filename rest pattern mf

/-- `scanFile` of grep.go: scan the lines of one source against the
pattern, returning the emitted records and the `matchFound` result. -/
def scanFile (filename : String) (lines : List (List Nat)) (pattern : List Nat)
    (cfg : MatchConfig) : List MatchRec × Bool :=
  scanFileLoop cfg filename lines pattern false

/-- The variant of the scan loop the specification asks implementations
to use: the pattern is folded once, outside the per-line loop, and never
mutated afterwards.  Stated from the specification's words for the
refinement comparison with `scanFileLoop`. -/
def scanFileLoopOnce (cfg : MatchConfig) (filename : String) :
    List (List Nat) → List Nat → Bool → List MatchRec × Bool
  | [], _, mf => ([], mf)
  | raw :: rest, pattern, mf =>
    let line := trimSpace raw
    let line := if cfg.ignoreCase then goToLower line else line
    let found := if cfg.wholeLine then line == pattern else goContains line pattern
    if found != cfg.invert then
      let binary := !(utf8Valid line)
      let line := if binary then sentinel else line
      if binary then ([⟨filename, line⟩], true)
      else
        let out := scanFileLoopOnce cfg filename rest pattern true
        (⟨filename, line⟩ :: out.1, out.2)
    else
      scanFileLoopOnce cfg filename rest pattern mf

/-- The fold-once scanner: fold the pattern a single time before the
per-line loop (the specification's recommended shape). -/
def scanFileOnce (filename : String) (lines : List (List Nat)) (pattern : List Nat)
    (cfg : MatchConfig) : List MatchRec × Bool :=
  scanFileLoopOnce cfg filename lines
    (if cfg.ignoreCase then goToLower pattern else pattern) false

/-- The pattern actually compared against every line: folded when
`ignoreCase` is set. -/
def foldedPattern (cfg : MatchConfig) (pattern : List Nat) : List Nat :=
  if cfg.ignoreCase then goToLower pattern else pattern

/-- The processed form of a raw input line: trimmed, then folded when
`ignoreCase` is set.  This is the text a non-binary record carries. -/
def procLine (cfg : MatchConfig) (raw : List Nat) : List Nat :=
  let line := trimSpace raw
  if cfg.ignoreCase then goToLower line else line

/-- The per-line decision of the scan loop, for an already-folded
pattern `q`: raw match (whole-line equality or substring containment)
XOR the invert flag. -/
def decideLine (cfg : MatchConfig) (q : List Nat) (raw : List Nat) : Bool :=
  (if cfg.wholeLine then procLine cfg raw == q
   else goContains (procLine cfg raw) q) != cfg.invert

/-- The final match decision for a raw line under the original pattern:
`rawMatch != invert` after trimming and folding. -/
def lineDecision (cfg : MatchConfig) (pattern : List Nat) (raw : List Nat) : Bool :=
  decideLine cfg (foldedPattern cfg pattern) raw

/-- One directory entry as reported by `ioutil.ReadDir`: a regular file,
a subdirectory (with its own readability and entries), a symbolic link,
or some other kind of node.  Directories carry a readability flag
because `ioutil.ReadDir` on an unreadable directory returns an error. -/
inductive FSEntry where
  | file (name : String)
  | dir (name : String) (readable : Bool) (entries : List FSEntry)
  | symlink (name : String)
  | other (name : String)

/-- Model of `path.Join` for one component (paths in the model are never
empty and carry no redundant separators, so joining is concatenation). -/
def pathJoin (dir name : String) : String := dir ++ "/" ++ name

/-- The body of `getFilesInDir` of grep.go, iterating the entries of a
readable directory: regular files are collected, subdirectories are
entered (always with `recurse = true`, as in the source) when `recurse`
is set and the subdirectory is readable (a `ReadDir` error makes the
source skip that subdirectory and continue), and symbolic links and
other nodes are skipped. -/
def getFilesInDirList (dirPath : String) (recurse : Bool) : List FSEntry → List String
  | [] => []
  | .file name :: rest =>
    pathJoin dirPath name :: getFilesInDirList dirPath recurse rest
  | .dir name readable sub :: rest =>
    (if recurse && readable then getFilesInDirList (pathJoin dirPath name) true sub
     else []) ++ getFilesInDirList dirPath recurse rest
  | .symlink _ :: rest => getFilesInDirList dirPath recurse rest
  | .other _ :: rest => getFilesInDirList dirPath recurse rest

/-- `getFilesInDir` of grep.go: `ReadDir` fails on an unreadable
directory (returning an error, modelled as `none`); otherwise the
entries are processed by the loop above. -/
def getFilesInDir (dirPath : String) (readable : Bool) (entries : List FSEntry)
    (recurse : Bool) : Option (List String) :=
  if readable then some (getFilesInDirList dirPath recurse entries) else none

/-- The result of `os.Stat` on one glob match. -/
inductive StatInfo where
  | statErr
  | regular
  | directory (readable : Bool) (entries : List FSEntry)
  | otherKind

/-- One path produced by glob expansion, together with its stat result. -/
structure PathItem where
  path : String
  info : StatInfo

/-- The result of `filepath.Glob` on one argument: an error, no match
(`items == nil`), or a list of matched paths. -/
inductive GlobOutcome where
  | globErr
  | noMatch
  | found (items : List PathItem)

/-- A diagnostic line written to standard error. -/
inductive Diag where
  | globError (globArg : String)
  | globNoMatch (globArg : String)
  | statError (path : String)
deriving DecidableEq, Repr

/-- Concatenate a list of (files, diagnostics) contributions in order. -/
def concatPairs : List (List String × List Diag) → List String × List Diag
  | [] => ([], [])
  | (a, b) :: rest =>
    let r := concatPairs rest
    (a ++ r.1, b ++ r.2)

/-- The per-item body of the `inputFiles` loop of grep.go: a stat error
is reported and skipped, a regular file is added, a directory is walked
only when the `recurse` flag is set (a `getFilesInDir` error silently
contributing nothing), and any other node falls through silently. -/
def resolveItem (recurse : Bool) (it : PathItem) : List String × List Diag :=
  match it.info with
  | .statErr => ([], [.statError it.path])
  | .regular => ([it.path], [])
  | .directory readable entries =>
    if recurse then
      match getFilesInDir it.path readable entries true with
      | some fs => (fs, [])
      | none => ([], [])
    else ([], [])
  | .otherKind => ([], [])

/-- `inputFiles` of grep.go: expand each glob argument, reporting and
skipping glob errors and unmatched globs, and resolve each matched path.
Returns the resolved file list together with the diagnostics written to
standard error, both in emission order. -/
def inputFiles (recurse : Bool) (globs : List (String × GlobOutcome)) :
    List String × List Diag :=
  concatPairs (globs.map (fun g =>
    match g with
    | (gs, .globErr) => ([], [Diag.globError gs])
    | (gs, .noMatch) => ([], [Diag.globNoMatch gs])
    | (_, .found items) => concatPairs (items.map (resolveItem recurse))))

/-- The file-scanning loop of `main` in grep.go: open each resolved file
in order; an open error is skipped silently (`continue` — no record and
no diagnostic) and scanning proceeds with the remaining files.  `env`
maps a path to its lines, or to `none` when `os.Open` fails. -/
def runFiles (env : String → Option (List (List Nat))) (cfg : MatchConfig)
    (pattern : List Nat) : List String → List MatchRec
  | [] => []
  | fname :: rest =>
    (match env fname with
     | none => []
     | some lines => (scanFile fname lines pattern cfg).1) ++
      runFiles env cfg pattern rest

/-- The observable outcome of a run of `main`: a usage error (exit
before any scanning), or a completed run with its emitted records (in
channel order) and resolver diagnostics. -/
inductive GrepResult where
  | usage
  | ran (records : List MatchRec) (diags : List Diag)
deriving DecidableEq, Repr

/-- `main` of grep.go.  `posArgs` is `none` when `flag.NArg() < 1`
(usage error) and otherwise carries the pattern and the remaining
positional arguments; `globOf` models `filepath.Glob`; `env` models
`os.Open`.  When the resolved file list is empty — whether or not file
arguments were supplied — standard input is scanned instead. -/
def grepMain (posArgs : Option (List Nat × List String))
    (globOf : String → GlobOutcome) (recurse : Bool) (cfg : MatchConfig)
    (env : String → Option (List (List Nat)))
    (stdinLines : List (List Nat)) : GrepResult :=
  match posArgs with
  | none => .usage
  | some (pattern, fileArgs) =>
    let res := inputFiles recurse (fileArgs.map (fun g => (g, globOf g)))
    let records :=
      if res.1.isEmpty then (scanFile "stdin" stdinLines pattern cfg).1
      else runFiles env cfg pattern res.1
    .ran records res.2

/-- The records a run reported (none for a usage error). -/
def runRecords : GrepResult → List MatchRec
  | .usage => []
  | .ran records _ => records

/-- The exit code derived from the outcome: 2 for a usage error, 0 when
the reporter saw at least one record, 1 otherwise. -/
def exitCode : GrepResult → Nat
  | .usage => 2
  | .ran records _ => if records.isEmpty then 1 else 0

/-- A Unicode scalar value: below the surrogate range, or between the
surrogate range and U+10FFFF. -/
def ValidScalar (r : Nat) : Prop :=
  r < 55296 ∨ (57344 ≤ r ∧ r ≤ 1114111)

/-- Specification-side description of the files a recursive directory
walk may report: a regular file directly in the listing, or a file
reachable through a readable subdirectory.  Symbolic links and other
node kinds admit no step, so nothing is ever reached through them. -/
inductive ReachableRegular : String → List FSEntry → String → Prop where
  | here (dirPath name : String) (entries : List FSEntry) :
      FSEntry.file name ∈ entries →
      ReachableRegular dirPath entries (pathJoin dirPath name)
  | deeper (dirPath name : String) (sub entries : List FSEntry) (f : String) :
      FSEntry.dir name true sub ∈ entries →
      ReachableRegular (pathJoin dirPath name) sub f →
      ReachableRegular dirPath entries f

theorem decodeStep_rest_le (b0 : Nat) (rest : List Nat) :
    (decodeStep b0 rest).2.2.length ≤ rest.length := by
  unfold decodeStep
  repeat' split
  all_goals simp
  all_goals omega

theorem utf8ValidAux_congr : ∀ (f1 f2 : Nat) (s : List Nat),
    s.length ≤ f1 → s.length ≤ f2 → utf8ValidAux f1 s = utf8ValidAux f2 s := by
  intro f1
  induction f1 with
  | zero =>
    intro f2 s h1 h2
    have hs : s = [] := List.eq_nil_of_length_eq_zero (by omega)
    subst hs
    cases f2 <;> rfl
  | succ g1 ih =>
    intro f2 s h1 h2
    cases s with
    | nil => cases f2 <;> rfl
    | cons b0 rest =>
      cases f2 with
      | zero => simp at h2
      | succ g2 =>
        have hle := decodeStep_rest_le b0 rest
        simp only [List.length_cons] at h1 h2
        show ((decodeStep b0 rest).2.1
            && utf8ValidAux g1 (decodeStep b0 rest).2.2)
          = ((decodeStep b0 rest).2.1
            && utf8ValidAux g2 (decodeStep b0 rest).2.2)
        rw [ih g2 (decodeStep b0 rest).2.2 (by omega) (by omega)]

theorem utf8Valid_nil : utf8Valid [] = true := rfl

theorem utf8Valid_cons (b0 : Nat) (rest : List Nat) :
    utf8Valid (b0 :: rest)
      = ((decodeStep b0 rest).2.1 && utf8Valid (decodeStep b0 rest).2.2) := by
  show ((decodeStep b0 rest).2.1
      && utf8ValidAux rest.length (decodeStep b0 rest).2.2)
    = ((decodeStep b0 rest).2.1 && utf8Valid (decodeStep b0 rest).2.2)
  rw [utf8ValidAux_congr rest.length (decodeStep b0 rest).2.2.length
    (decodeStep b0 rest).2.2 (decodeStep_rest_le b0 rest) (Nat.le_refl _)]
  rfl

theorem utf8DecodeAux_congr : ∀ (f1 f2 : Nat) (s : List Nat),
    s.length ≤ f1 → s.length ≤ f2 → utf8DecodeAux f1 s = utf8DecodeAux f2 s := by
  intro f1
  induction f1 with
  | zero =>
    intro f2 s h1 h2
    have hs : s = [] := List.eq_nil_of_length_eq_zero (by omega)
    subst hs
    cases f2 <;> rfl
  | succ g1 ih =>
    intro f2 s h1 h2
    cases s with
    | nil => cases f2 <;> rfl
    | cons b0 rest =>
      cases f2 with
      | zero => simp at h2
      | succ g2 =>
        have hle := decodeStep_rest_le b0 rest
        simp only [List.length_cons] at h1 h2
        show (decodeStep b0 rest).1 :: utf8DecodeAux g1 (decodeStep b0 rest).2.2
          = (decodeStep b0 rest).1 :: utf8DecodeAux g2 (decodeStep b0 rest).2.2
        rw [ih g2 (decodeStep b0 rest).2.2 (by omega) (by omega)]

theorem utf8Decode_nil : utf8Decode [] = [] := rfl

theorem utf8Decode_cons (b0 : Nat) (rest : List Nat) :
    utf8Decode (b0 :: rest)
      = (decodeStep b0 rest).1 :: utf8Decode (decodeStep b0 rest).2.2 := by
  show (decodeStep b0 rest).1 :: utf8DecodeAux rest.length (decodeStep b0 rest).2.2
    = (decodeStep b0 rest).1 :: utf8Decode (decodeStep b0 rest).2.2
  rw [utf8DecodeAux_congr rest.length (decodeStep b0 rest).2.2.length
    (decodeStep b0 rest).2.2 (decodeStep_rest_le b0 rest) (Nat.le_refl _)]
  rfl

theorem decodeStep_ascii (b0 : Nat) (rest : List Nat) (h : b0 < 128) :
    decodeStep b0 rest = (b0, true, rest) := by
  unfold decodeStep
  rw [if_pos h]

theorem decodeStep_two (b0 b1 : Nat) (t : List Nat)
    (h0 : 194 ≤ b0) (h1 : b0 ≤ 223) (hc : isCont b1 = true) :
    decodeStep b0 (b1 :: t) = ((b0 % 32) * 64 + b1 % 64, true, t) := by
  unfold decodeStep
  rw [if_neg (by omega), if_neg (by omega), if_pos h1]
  simp [hc]

theorem decodeStep_three (b0 b1 b2 : Nat) (t : List Nat)
    (h0 : 224 ≤ b0) (h1 : b0 ≤ 239) (ha : accept3 b0 b1 = true)
    (hc : isCont b2 = true) :
    decodeStep b0 (b1 :: b2 :: t)
      = ((b0 % 16) * 4096 + (b1 % 64) * 64 + b2 % 64, true, t) := by
  unfold decodeStep
  rw [if_neg (by omega), if_neg (by omega), if_neg (by omega), if_pos h1]
  simp [ha, hc]

theorem decodeStep_four (b0 b1 b2 b3 : Nat) (t : List Nat)
    (h0 : 240 ≤ b0) (h1 : b0 ≤ 244) (ha : accept4 b0 b1 = true)
    (hc2 : isCont b2 = true) (hc3 : isCont b3 = true) :
    decodeStep b0 (b1 :: b2 :: b3 :: t)
      = ((b0 % 8) * 262144 + (b1 % 64) * 4096 + (b2 % 64) * 64 + b3 % 64,
         true, t) := by
  unfold decodeStep
  rw [if_neg (by omega), if_neg (by omega), if_neg (by omega),
    if_neg (by omega), if_pos h1]
  simp [ha, hc2, hc3]

theorem utf8Valid_cons_ascii (b0 : Nat) (t : List Nat) (h : b0 < 128) :
    utf8Valid (b0 :: t) = utf8Valid t := by
  rw [utf8Valid_cons, decodeStep_ascii b0 t h]
  simp

theorem utf8Valid_cons_two (b0 b1 : Nat) (t : List Nat)
    (h0 : 194 ≤ b0) (h1 : b0 ≤ 223) (hc : isCont b1 = true) :
    utf8Valid (b0 :: b1 :: t) = utf8Valid t := by
  rw [utf8Valid_cons, decodeStep_two b0 b1 t h0 h1 hc]
  simp

theorem utf8Valid_cons_three (b0 b1 b2 : Nat) (t : List Nat)
    (h0 : 224 ≤ b0) (h1 : b0 ≤ 239) (ha : accept3 b0 b1 = true)
    (hc : isCont b2 = true) :
    utf8Valid (b0 :: b1 :: b2 :: t) = utf8Valid t := by
  rw [utf8Valid_cons, decodeStep_three b0 b1 b2 t h0 h1 ha hc]
  simp

theorem utf8Valid_cons_four (b0 b1 b2 b3 : Nat) (t : List Nat)
    (h0 : 240 ≤ b0) (h1 : b0 ≤ 244) (ha : accept4 b0 b1 = true)
    (hc2 : isCont b2 = true) (hc3 : isCont b3 = true) :
    utf8Valid (b0 :: b1 :: b2 :: b3 :: t) = utf8Valid t := by
  rw [utf8Valid_cons, decodeStep_four b0 b1 b2 b3 t h0 h1 ha hc2 hc3]
  simp

theorem isCont_of_range (b : Nat) (h1 : 128 ≤ b) (h2 : b ≤ 191) :
    isCont b = true := by
  simp [isCont]
  omega

/-- Every byte list produced by `utf8EncodeRune` is a valid prefix:
validity of the concatenation reduces to validity of the tail. -/
theorem utf8Valid_encodeRune_append (r : Nat) (t : List Nat) :
    utf8Valid (utf8EncodeRune r ++ t) = utf8Valid t := by
  unfold utf8EncodeRune
  split_ifs with h1 h2 h3 h4 h5
  · exact utf8Valid_cons_ascii r t h1
  · exact utf8Valid_cons_two _ _ t (by omega) (by omega)
      (isCont_of_range _ (by omega) (by omega))
  · exact utf8Valid_cons_three 239 191 189 t (by omega) (by omega)
      (by simp [accept3, isCont]) (by simp [isCont])
  · refine utf8Valid_cons_three _ _ _ t (by omega) (by omega) ?_
      (isCont_of_range _ (by omega) (by omega))
    unfold accept3 isCont
    split_ifs with e1 e2 <;> simp <;> omega
  · refine utf8Valid_cons_four _ _ _ _ t (by omega) (by omega) ?_
      (isCont_of_range _ (by omega) (by omega))
      (isCont_of_range _ (by omega) (by omega))
    unfold accept4 isCont
    split_ifs with e1 e2 <;> simp <;> omega
  · exact utf8Valid_cons_three 239 191 189 t (by omega) (by omega)
      (by simp [accept3, isCont]) (by simp [isCont])

theorem utf8Valid_flatten_encode (rs : List Nat) :
    utf8Valid ((rs.map utf8EncodeRune).flatten) = true := by
  induction rs with
  | nil => simpa using utf8Valid_nil
  | cons r rs ih =>
    simp only [List.map_cons, List.flatten_cons, utf8Valid_encodeRune_append]
    exact ih

theorem utf8Valid_of_all_ascii (s : List Nat)
    (h : s.all (fun b => b < 128) = true) : utf8Valid s = true := by
  induction s with
  | nil => exact utf8Valid_nil
  | cons b t ih =>
    simp only [List.all_cons, Bool.and_eq_true, decide_eq_true_eq] at h
    rw [utf8Valid_cons_ascii b t h.1]
    exact ih h.2

theorem toLowerRune_lt_128 (b : Nat) (h : b < 128) : toLowerRune b < 128 := by
  unfold toLowerRune
  split_ifs <;> omega

/-- `strings.ToLower` always returns valid UTF-8: the ASCII fast path
keeps every byte below 128, and the mapping path re-encodes runes with
`utf8.EncodeRune`, which emits only valid encodings. -/
theorem goToLower_valid (s : List Nat) : utf8Valid (goToLower s) = true := by
  unfold goToLower
  split_ifs with h
  · apply utf8Valid_of_all_ascii
    simp only [List.all_eq_true, decide_eq_true_eq] at h ⊢
    intro b hb
    obtain ⟨a, ha, rfl⟩ := List.mem_map.mp hb
    exact toLowerRune_lt_128 a (h a ha)
  · have hm : (utf8Decode s).map (fun r => utf8EncodeRune (toLowerRune r))
        = ((utf8Decode s).map toLowerRune).map utf8EncodeRune := by
      rw [List.map_map]
      rfl
    rw [hm]
    exact utf8Valid_flatten_encode _


theorem decodeStep_rune_scalar (b0 : Nat) (rest : List Nat) :
    ValidScalar (decodeStep b0 rest).1 := by
  unfold decodeStep
  repeat' split
  all_goals first
  | (simp_all [accept3, isCont, accept4, ValidScalar, replacementRune]; omega)
  | (simp_all [accept3, isCont, accept4, ValidScalar, replacementRune]
     split_ifs at * <;> omega)
  | (unfold ValidScalar replacementRune; omega)

theorem decodeStep_rune_big (b0 : Nat) (rest : List Nat) (h : 128 ≤ b0) :
    128 ≤ (decodeStep b0 rest).1 := by
  unfold decodeStep
  repeat' split
  all_goals first
  | (simp_all [accept3, isCont, accept4, replacementRune]; omega)
  | (simp_all [accept3, isCont, accept4, replacementRune]
     split_ifs at * <;> omega)
  | (unfold replacementRune; omega)
  | (simp; omega)

theorem utf8DecodeAux_mem_scalar : ∀ (fuel : Nat) (s : List Nat),
    ∀ r ∈ utf8DecodeAux fuel s, ValidScalar r := by
  intro fuel
  induction fuel with
  | zero =>
    intro s r hr
    cases s <;> simp [utf8DecodeAux] at hr
  | succ f ih =>
    intro s r hr
    cases s with
    | nil => simp [utf8DecodeAux] at hr
    | cons b0 rest =>
      have hx : utf8DecodeAux (f + 1) (b0 :: rest)
          = (decodeStep b0 rest).1
            :: utf8DecodeAux f (decodeStep b0 rest).2.2 := rfl
      rw [hx] at hr
      rcases List.mem_cons.mp hr with h | h
      · exact h ▸ decodeStep_rune_scalar b0 rest
      · exact ih (decodeStep b0 rest).2.2 r h

theorem utf8Decode_mem_scalar (s : List Nat) :
    ∀ r ∈ utf8Decode s, ValidScalar r :=
  utf8DecodeAux_mem_scalar s.length s

theorem toLowerRune_idem (r : Nat) : toLowerRune (toLowerRune r) = toLowerRune r := by
  unfold toLowerRune
  split_ifs <;> omega

theorem toLowerRune_scalar (r : Nat) (h : ValidScalar r) :
    ValidScalar (toLowerRune r) := by
  unfold ValidScalar at *
  unfold toLowerRune
  split_ifs <;> omega

theorem toLowerRune_of_big (r : Nat) (h : 128 ≤ r) : toLowerRune r = r := by
  unfold toLowerRune
  split_ifs <;> omega

theorem toLowerRune_ne_66 (r : Nat) : toLowerRune r ≠ 66 := by
  unfold toLowerRune
  split_ifs <;> omega

theorem utf8Decode_encodeRune_append (r : Nat) (t : List Nat) (h : ValidScalar r) :
    utf8Decode (utf8EncodeRune r ++ t) = r :: utf8Decode t := by
  unfold ValidScalar at h
  unfold utf8EncodeRune
  split_ifs with h1 h2 h3 h4 h5
  · rw [List.cons_append, List.nil_append, utf8Decode_cons, decodeStep_ascii r t h1]
  · rw [List.cons_append, List.cons_append, List.nil_append, utf8Decode_cons,
      decodeStep_two _ _ t (by omega) (by omega)
        (isCont_of_range _ (by omega) (by omega))]
    congr 1
    omega
  · omega
  · rw [List.cons_append, List.cons_append, List.cons_append, List.nil_append,
      utf8Decode_cons,
      decodeStep_three _ _ _ t (by omega) (by omega)
        (by unfold accept3 isCont; split_ifs <;> simp <;> omega)
        (isCont_of_range _ (by omega) (by omega))]
    congr 1
    omega
  · rw [List.cons_append, List.cons_append, List.cons_append, List.cons_append,
      List.nil_append, utf8Decode_cons,
      decodeStep_four _ _ _ _ t (by omega) (by omega)
        (by unfold accept4 isCont; split_ifs <;> simp <;> omega)
        (isCont_of_range _ (by omega) (by omega))
        (isCont_of_range _ (by omega) (by omega))]
    congr 1
    omega
  · omega

theorem utf8Decode_flatten_encode (rs : List Nat) (h : ∀ r ∈ rs, ValidScalar r) :
    utf8Decode ((rs.map utf8EncodeRune).flatten) = rs := by
  induction rs with
  | nil => simp [utf8Decode_nil]
  | cons r rs ih =>
    simp only [List.map_cons, List.flatten_cons]
    rw [utf8Decode_encodeRune_append r _ (h r (List.mem_cons_self r rs))]
    rw [ih (fun x hx => h x (List.mem_cons_of_mem r hx))]

theorem exists_big_rune_aux : ∀ (fuel : Nat) (s : List Nat),
    s.length ≤ fuel → s.all (fun b => b < 128) = false →
    ∃ r ∈ utf8DecodeAux fuel s, 128 ≤ r := by
  intro fuel
  induction fuel with
  | zero =>
    intro s hs h
    have hn : s = [] := List.eq_nil_of_length_eq_zero (by omega)
    subst hn
    simp at h
  | succ f ih =>
    intro s hs h
    cases s with
    | nil => simp at h
    | cons b0 rest =>
      have hx : utf8DecodeAux (f + 1) (b0 :: rest)
          = (decodeStep b0 rest).1
            :: utf8DecodeAux f (decodeStep b0 rest).2.2 := rfl
      rw [hx]
      simp only [List.length_cons] at hs
      by_cases hb : b0 < 128
      · rw [decodeStep_ascii b0 rest hb]
        have hrest : rest.all (fun b => b < 128) = false := by
          simpa [hb] using h
        obtain ⟨r, hr, hbig⟩ := ih rest (by omega) hrest
        exact ⟨r, List.mem_cons_of_mem _ hr, hbig⟩
      · exact ⟨(decodeStep b0 rest).1, List.mem_cons_self _ _,
          decodeStep_rune_big b0 rest (by omega)⟩

theorem exists_big_rune (s : List Nat) :
    s.all (fun b => b < 128) = false → ∃ r ∈ utf8Decode s, 128 ≤ r :=
  exists_big_rune_aux s.length s (Nat.le_refl _)

theorem encodeRune_has_big (r : Nat) (h : 128 ≤ r) :
    ∃ b ∈ utf8EncodeRune r, 128 ≤ b := by
  unfold utf8EncodeRune
  split_ifs with h1 h2 h3 h4 h5
  · exact absurd h1 (by omega)
  · exact ⟨_, List.mem_cons_self _ _, by omega⟩
  · exact ⟨_, List.mem_cons_self _ _, by omega⟩
  · exact ⟨_, List.mem_cons_self _ _, by omega⟩
  · exact ⟨_, List.mem_cons_self _ _, by omega⟩
  · exact ⟨_, List.mem_cons_self _ _, by omega⟩

theorem no66_encode_low (r : Nat) : 66 ∉ utf8EncodeRune (toLowerRune r) := by
  have h66 := toLowerRune_ne_66 r
  generalize toLowerRune r = q at *
  unfold utf8EncodeRune
  split_ifs <;> simp <;> omega

theorem goToLower_ascii_eq (s : List Nat) (h : s.all (fun b => b < 128) = true) :
    goToLower s = s.map toLowerRune := by
  unfold goToLower
  rw [if_pos h]

theorem goToLower_not_ascii_eq (s : List Nat)
    (hf : s.all (fun b => b < 128) = false) :
    goToLower s = (((utf8Decode s).map toLowerRune).map utf8EncodeRune).flatten := by
  unfold goToLower
  rw [if_neg (by simp [hf]), List.map_map]
  rfl

theorem goToLower_all_ascii_false (s : List Nat)
    (h : s.all (fun b => b < 128) = false) :
    (goToLower s).all (fun b => b < 128) = false := by
  rw [goToLower_not_ascii_eq s h]
  obtain ⟨r, hr, hbig⟩ := exists_big_rune s h
  obtain ⟨b, hb, hbbig⟩ := encodeRune_has_big (toLowerRune r)
    (by rw [toLowerRune_of_big r hbig]; exact hbig)
  rw [List.all_eq_false]
  refine ⟨b, ?_, by simpa using hbbig⟩
  rw [List.mem_flatten]
  exact ⟨utf8EncodeRune (toLowerRune r),
    List.mem_map_of_mem _ (List.mem_map_of_mem toLowerRune hr), hb⟩

theorem goToLower_idem (s : List Nat) : goToLower (goToLower s) = goToLower s := by
  by_cases h : s.all (fun b => b < 128) = true
  · have h2 : (s.map toLowerRune).all (fun b => b < 128) = true := by
      simp only [List.all_eq_true, decide_eq_true_eq] at h ⊢
      intro b hb
      obtain ⟨a, ha, rfl⟩ := List.mem_map.mp hb
      exact toLowerRune_lt_128 a (h a ha)
    rw [goToLower_ascii_eq s h, goToLower_ascii_eq _ h2, List.map_map]
    exact List.map_congr_left (fun a _ => toLowerRune_idem a)
  · have hf : s.all (fun b => b < 128) = false := by
      rcases Bool.eq_false_or_eq_true (s.all (fun b => b < 128)) with hx | hx
      · exact absurd hx h
      · exact hx
    have hrs : ∀ r ∈ (utf8Decode s).map toLowerRune, ValidScalar r := by
      intro r hr
      obtain ⟨a, ha, rfl⟩ := List.mem_map.mp hr
      exact toLowerRune_scalar a (utf8Decode_mem_scalar s a ha)
    have h2 : (goToLower s).all (fun b => b < 128) = false :=
      goToLower_all_ascii_false s hf
    have h3 : utf8Decode (goToLower s) = (utf8Decode s).map toLowerRune := by
      rw [goToLower_not_ascii_eq s hf]
      exact utf8Decode_flatten_encode _ hrs
    have h4 : ((utf8Decode s).map toLowerRune).map toLowerRune
        = (utf8Decode s).map toLowerRune := by
      rw [List.map_map]
      exact List.map_congr_left (fun a _ => toLowerRune_idem a)
    rw [goToLower_not_ascii_eq _ h2, h3, h4, goToLower_not_ascii_eq s hf]

theorem goToLower_no_66 (s : List Nat) : 66 ∉ goToLower s := by
  unfold goToLower
  split_ifs with h
  · intro hm
    obtain ⟨a, ha, hae⟩ := List.mem_map.mp hm
    exact toLowerRune_ne_66 a hae
  · intro hm
    obtain ⟨c, hc, hmc⟩ := List.mem_flatten.mp hm
    obtain ⟨r, hr, hre⟩ := List.mem_map.mp hc
    rw [← hre] at hmc
    exact no66_encode_low r hmc

theorem goToLower_ne_sentinel (s : List Nat) : goToLower s ≠ sentinel := by
  intro he
  exact goToLower_no_66 s (by rw [he]; decide)


theorem foldedPattern_idem (cfg : MatchConfig) (p : List Nat) :
    foldedPattern cfg (foldedPattern cfg p) = foldedPattern cfg p := by
  unfold foldedPattern
  cases h : cfg.ignoreCase
  · simp
  · simp [goToLower_idem]

theorem scanFileLoop_eq_once (cfg : MatchConfig) (f : String)
    (lines : List (List Nat)) : ∀ (p : List Nat) (mf : Bool),
    scanFileLoop cfg f lines p mf
      = scanFileLoopOnce cfg f lines (foldedPattern cfg p) mf := by
  induction lines with
  | nil =>
    intro p mf
    rw [scanFileLoop, scanFileLoopOnce]
  | cons raw rest ih =>
    intro p mf
    rw [scanFileLoop, scanFileLoopOnce]
    have hfp : (if cfg.ignoreCase = true then goToLower p else p)
        = foldedPattern cfg p := rfl
    rw [hfp, ih (foldedPattern cfg p) true, ih (foldedPattern cfg p) mf,
      foldedPattern_idem cfg p]

theorem scanFileLoopOnce_cons (cfg : MatchConfig) (f : String) (raw : List Nat)
    (rest : List (List Nat)) (q : List Nat) (mf : Bool) :
    scanFileLoopOnce cfg f (raw :: rest) q mf =
      if decideLine cfg q raw then
        if utf8Valid (procLine cfg raw) then
          ((⟨f, procLine cfg raw⟩ : MatchRec) ::
            (scanFileLoopOnce cfg f rest q true).1,
           (scanFileLoopOnce cfg f rest q true).2)
        else ([⟨f, sentinel⟩], true)
      else scanFileLoopOnce cfg f rest q mf := by
  rw [scanFileLoopOnce]
  simp only [decideLine, procLine]
  split_ifs <;> simp_all

theorem scanFileLoopOnce_nil (cfg : MatchConfig) (f : String) (q : List Nat)
    (mf : Bool) : scanFileLoopOnce cfg f [] q mf = ([], mf) := by
  rw [scanFileLoopOnce]

theorem scanFileLoopOnce_char (cfg : MatchConfig) (f : String)
    (lines : List (List Nat)) (q : List Nat) :
    ∀ (mf : Bool),
    (∀ raw ∈ lines, decideLine cfg q raw = true →
      utf8Valid (procLine cfg raw) = true) →
    scanFileLoopOnce cfg f lines q mf
      = ((lines.filter (decideLine cfg q)).map
           (fun raw => (⟨f, procLine cfg raw⟩ : MatchRec)),
         mf || !(lines.filter (decideLine cfg q)).isEmpty) := by
  induction lines with
  | nil =>
    intro mf hv
    rw [scanFileLoopOnce_nil]
    simp
  | cons raw rest ih =>
    intro mf hv
    rw [scanFileLoopOnce_cons]
    by_cases hd : decideLine cfg q raw = true
    · rw [if_pos hd, if_pos (hv raw (List.mem_cons_self raw rest) hd),
        ih true (fun x hx => hv x (List.mem_cons_of_mem raw hx))]
      simp [List.filter_cons, hd]
    · rw [if_neg hd, ih mf (fun x hx => hv x (List.mem_cons_of_mem raw hx))]
      simp [List.filter_cons, hd]

theorem scanFileLoopOnce_found (cfg : MatchConfig) (f : String)
    (lines : List (List Nat)) (q : List Nat) : ∀ (mf : Bool),
    (scanFileLoopOnce cfg f lines q mf).2
      = (mf || !(scanFileLoopOnce cfg f lines q mf).1.isEmpty) := by
  induction lines with
  | nil =>
    intro mf
    rw [scanFileLoopOnce_nil]
    simp
  | cons raw rest ih =>
    intro mf
    rw [scanFileLoopOnce_cons]
    split_ifs with h1 h2
    · simp [ih true]
    · simp
    · exact ih mf

theorem scanFileLoopOnce_break (cfg : MatchConfig) (f : String)
    (pre : List (List Nat)) (b : List Nat) (post : List (List Nat))
    (q : List Nat)
    (hb : decideLine cfg q b = true)
    (hbin : utf8Valid (procLine cfg b) = false) :
    ∀ (mf : Bool),
    (∀ raw ∈ pre, decideLine cfg q raw = true →
      utf8Valid (procLine cfg raw) = true) →
    scanFileLoopOnce cfg f (pre ++ b :: post) q mf
      = ((pre.filter (decideLine cfg q)).map
           (fun raw => (⟨f, procLine cfg raw⟩ : MatchRec)) ++ [⟨f, sentinel⟩],
         true) := by
  induction pre with
  | nil =>
    intro mf hpre
    simp only [List.nil_append]
    rw [scanFileLoopOnce_cons, if_pos hb, if_neg (by simp [hbin])]
    simp
  | cons raw rest ih =>
    intro mf hpre
    rw [List.cons_append, scanFileLoopOnce_cons]
    by_cases hd : decideLine cfg q raw = true
    · rw [if_pos hd, if_pos (hpre raw (List.mem_cons_self raw rest) hd),
        ih true (fun x hx => hpre x (List.mem_cons_of_mem raw hx))]
      simp [List.filter_cons, hd]
    · rw [if_neg hd, ih mf (fun x hx => hpre x (List.mem_cons_of_mem raw hx))]
      simp [List.filter_cons, hd]


theorem scanFile_char (cfg : MatchConfig) (f : String) (lines : List (List Nat))
    (pattern : List Nat)
    (hv : ∀ raw ∈ lines, decideLine cfg (foldedPattern cfg pattern) raw = true →
      utf8Valid (procLine cfg raw) = true) :
    scanFile f lines pattern cfg
      = ((lines.filter (decideLine cfg (foldedPattern cfg pattern))).map
           (fun raw => (⟨f, procLine cfg raw⟩ : MatchRec)),
         !(lines.filter (decideLine cfg (foldedPattern cfg pattern))).isEmpty) := by
  unfold scanFile
  rw [scanFileLoop_eq_once, scanFileLoopOnce_char cfg f lines _ false hv]
  simp

theorem mem_scan_records (cfg : MatchConfig) (f : String) (q : List Nat)
    (lines : List (List Nat)) (raw : List Nat) (hraw : raw ∈ lines) :
    ((⟨f, procLine cfg raw⟩ : MatchRec)
        ∈ (lines.filter (decideLine cfg q)).map
            (fun x => (⟨f, procLine cfg x⟩ : MatchRec)))
      ↔ decideLine cfg q raw = true := by
  constructor
  · intro hm
    obtain ⟨x, hx, hxe⟩ := List.mem_map.mp hm
    have hpe : procLine cfg x = procLine cfg raw := by
      simpa [MatchRec.mk.injEq] using hxe
    have hdd : decideLine cfg q x = decideLine cfg q raw := by
      unfold decideLine
      rw [hpe]
    rw [← hdd]
    exact (List.mem_filter.mp hx).2
  · intro hd
    exact List.mem_map.mpr ⟨raw, List.mem_filter.mpr ⟨hraw, hd⟩, rfl⟩

theorem decideLine_invert (ic wl : Bool) (q raw : List Nat) :
    decideLine ⟨ic, true, wl⟩ q raw = !(decideLine ⟨ic, false, wl⟩ q raw) := by
  unfold decideLine procLine
  cases wl <;> cases ic <;> simp [Bool.bne_true, Bool.bne_false]

theorem length_filter_not_aux (p : List Nat → Bool) (l : List (List Nat)) :
    (l.filter p).length + (l.filter (fun x => !(p x))).length = l.length := by
  induction l with
  | nil => simp
  | cons a t ih =>
    cases h : p a <;> simp [List.filter_cons, h] <;> omega

/-- C1: for every input line the scanner first trims leading and trailing
white space, then (if `ignoreCase`) folds both the line and the pattern to
lower case; in whole-line mode the line raw-matches iff the processed line
is exactly equal to the pattern, otherwise iff it contains the pattern as
a contiguous substring; and the line is reported iff
`rawMatch != config.invert`.  Stated over any scan in which no reported
line trips the binary sentinel: the emitted records are exactly the
final-decision-true lines, in order, carrying the trimmed-and-folded
text. -/
theorem scanFile_line_decision (cfg : MatchConfig) (f : String)
    (lines : List (List Nat)) (pattern : List Nat)
    (hv : ∀ raw ∈ lines, lineDecision cfg pattern raw = true →
      utf8Valid (procLine cfg raw) = true) :
    scanFile f lines pattern cfg
      = ((lines.filter (lineDecision cfg pattern)).map
           (fun raw => (⟨f, procLine cfg raw⟩ : MatchRec)),
         !(lines.filter (lineDecision cfg pattern)).isEmpty) :=
  scanFile_char cfg f lines pattern hv

theorem scanFile_line_decision_witness :
    (∀ raw ∈ [[97], [66, 98]], lineDecision ⟨false, false, false⟩ [97] raw = true →
      utf8Valid (procLine ⟨false, false, false⟩ raw) = true) ∧
    scanFile "f" [[97], [66, 98]] [97] ⟨false, false, false⟩
      = (([[97], [66, 98]].filter (lineDecision ⟨false, false, false⟩ [97])).map
           (fun raw => (⟨"f", procLine ⟨false, false, false⟩ raw⟩ : MatchRec)),
         !([[97], [66, 98]].filter (lineDecision ⟨false, false, false⟩ [97])).isEmpty) :=
  ⟨by decide, scanFile_line_decision ⟨false, false, false⟩ "f" [[97], [66, 98]] [97]
    (by decide)⟩

/-- C2: when the scan reaches a line that fails text-encoding validation
and whose final match decision is true, the scanner emits exactly one
record for that source with the sentinel text in place of the line, and
emits no records for any later line of that source — scanning stops
immediately after that record. -/
theorem scanFile_binary_break (cfg : MatchConfig) (f : String)
    (pre : List (List Nat)) (b : List Nat) (post : List (List Nat))
    (pattern : List Nat)
    (hpre : ∀ raw ∈ pre, lineDecision cfg pattern raw = true →
      utf8Valid (procLine cfg raw) = true)
    (hb : lineDecision cfg pattern b = true)
    (hbin : utf8Valid (procLine cfg b) = false) :
    scanFile f (pre ++ b :: post) pattern cfg
      = ((pre.filter (lineDecision cfg pattern)).map
           (fun raw => (⟨f, procLine cfg raw⟩ : MatchRec)) ++ [⟨f, sentinel⟩],
         true) := by
  unfold scanFile
  rw [scanFileLoop_eq_once,
    scanFileLoopOnce_break cfg f pre b post (foldedPattern cfg pattern) hb hbin
      false hpre]
  rfl

theorem scanFile_binary_break_witness :
    (∀ raw ∈ [[97]], lineDecision ⟨false, false, false⟩ [97] raw = true →
      utf8Valid (procLine ⟨false, false, false⟩ raw) = true) ∧
    lineDecision ⟨false, false, false⟩ [97] [255, 97] = true ∧
    utf8Valid (procLine ⟨false, false, false⟩ [255, 97]) = false ∧
    scanFile "f" ([[97]] ++ [255, 97] :: [[97, 98]]) [97] ⟨false, false, false⟩
      = (([[97]].filter (lineDecision ⟨false, false, false⟩ [97])).map
           (fun raw => (⟨"f", procLine ⟨false, false, false⟩ raw⟩ : MatchRec))
          ++ [⟨"f", sentinel⟩], true) :=
  ⟨by decide, by decide, by decide,
    scanFile_binary_break ⟨false, false, false⟩ "f" [[97]] [255, 97] [[97, 98]]
      [97] (by decide) (by decide) (by decide)⟩

/-- C5: re-folding the pattern to lower case on every line iteration
while mutating the pattern variable in place (as grep.go's `scanFile`
does) produces exactly the same emitted records and returned flag as
folding the pattern once before the per-line loop: the two scanner
variants are observably equivalent for every input and configuration. -/
theorem scanFile_refold_equiv (cfg : MatchConfig) (f : String)
    (lines : List (List Nat)) (pattern : List Nat) :
    scanFile f lines pattern cfg = scanFileOnce f lines pattern cfg := by
  unfold scanFile scanFileOnce
  have hfp : (if cfg.ignoreCase then goToLower pattern else pattern)
      = foldedPattern cfg pattern := rfl
  rw [hfp, scanFileLoop_eq_once]

/-- C7: for every source, pattern and configuration, the boolean returned
by `scanFile` is true iff at least one match record was emitted to the
output channel during that invocation. -/
theorem scanFile_found_iff (f : String) (lines : List (List Nat))
    (pattern : List Nat) (cfg : MatchConfig) :
    (scanFile f lines pattern cfg).2 = true
      ↔ (scanFile f lines pattern cfg).1 ≠ [] := by
  unfold scanFile
  rw [scanFileLoop_eq_once, scanFileLoopOnce_found]
  cases hrec : (scanFileLoopOnce cfg f lines (foldedPattern cfg pattern) false).1
    <;> simp

/-- C9: when case-insensitive mode is enabled the scanner never emits a
record with the sentinel text: lower-case folding replaces invalid byte
sequences with the replacement character before the validity check, so
the binary branch is unreachable, and a lower-cased line cannot spell the
sentinel (which contains an upper-case B). -/
theorem scanFile_no_sentinel_ignorecase (cfg : MatchConfig) (f : String)
    (lines : List (List Nat)) (pattern : List Nat)
    (hic : cfg.ignoreCase = true) :
    ∀ m ∈ (scanFile f lines pattern cfg).1, m.line ≠ sentinel := by
  have hproc : ∀ raw : List Nat, procLine cfg raw = goToLower (trimSpace raw) := by
    intro raw
    unfold procLine
    rw [hic]
    rfl
  have hv : ∀ raw ∈ lines,
      decideLine cfg (foldedPattern cfg pattern) raw = true →
      utf8Valid (procLine cfg raw) = true := by
    intro raw _ _
    rw [hproc raw]
    exact goToLower_valid (trimSpace raw)
  rw [scanFile_char cfg f lines pattern hv]
  intro m hm
  obtain ⟨x, hx, hxe⟩ := List.mem_map.mp hm
  rw [← hxe]
  show procLine cfg x ≠ sentinel
  rw [hproc x]
  exact goToLower_ne_sentinel (trimSpace x)

theorem scanFile_no_sentinel_ignorecase_witness :
    (⟨true, false, false⟩ : MatchConfig).ignoreCase = true ∧
    ∀ m ∈ (scanFile "f" [[255, 97], [66, 105, 110]] [97]
        ⟨true, false, false⟩).1, m.line ≠ sentinel :=
  ⟨rfl, scanFile_no_sentinel_ignorecase ⟨true, false, false⟩ "f"
    [[255, 97], [66, 105, 110]] [97] rfl⟩


theorem mem_scan_records_general (cfg : MatchConfig) (f : String)
    (d : List Nat → Bool) (lines : List (List Nat)) (raw : List Nat)
    (hraw : raw ∈ lines)
    (hd : ∀ x, procLine cfg x = procLine cfg raw → d x = d raw) :
    ((⟨f, procLine cfg raw⟩ : MatchRec)
        ∈ (lines.filter d).map (fun x => (⟨f, procLine cfg x⟩ : MatchRec)))
      ↔ d raw = true := by
  constructor
  · intro hm
    obtain ⟨x, hx, hxe⟩ := List.mem_map.mp hm
    have hpe : procLine cfg x = procLine cfg raw := by
      simpa [MatchRec.mk.injEq] using hxe
    rw [← hd x hpe]
    exact (List.mem_filter.mp hx).2
  · intro hdr
    exact List.mem_map.mpr ⟨raw, List.mem_filter.mpr ⟨hraw, hdr⟩, rfl⟩

/-- C3 counterexample: on the three-line source `[0xFF 'a'], [0xFF], ['a']`
with pattern `'a'` (substring mode, case-sensitive), the plain run hits the
binary short-circuit at line 1 and the inverted run hits it at line 2, so
each run emits exactly one sentinel record and the third line `'a'` is
reported in neither run — enabling invert does not produce the exact
complement of the reported set. -/
theorem scanFile_invert_counterexample :
    (scanFile "f" [[255, 97], [255], [97]] [97] ⟨false, false, false⟩).1
      = [⟨"f", sentinel⟩] ∧
    (scanFile "f" [[255, 97], [255], [97]] [97] ⟨false, true, false⟩).1
      = [⟨"f", sentinel⟩] ∧
    (⟨"f", [97]⟩ : MatchRec)
      ∉ (scanFile "f" [[255, 97], [255], [97]] [97] ⟨false, false, false⟩).1 ∧
    (⟨"f", [97]⟩ : MatchRec)
      ∉ (scanFile "f" [[255, 97], [255], [97]] [97] ⟨false, true, false⟩).1 := by
  decide

/-- C3 (amended): restricted to sources on which no processed line fails
text-encoding validation (so the binary short-circuit never fires),
running with invert enabled reports exactly the set complement of the
lines reported by the non-inverted run: the record counts of the two runs
partition the line count, and each line's record appears in exactly one
of the two runs. -/
theorem scanFile_invert_complement (ic wl : Bool) (f : String)
    (pattern : List Nat) (lines : List (List Nat))
    (hv : ∀ raw ∈ lines, utf8Valid (procLine ⟨ic, false, wl⟩ raw) = true) :
    ((scanFile f lines pattern ⟨ic, false, wl⟩).1.length
        + (scanFile f lines pattern ⟨ic, true, wl⟩).1.length
      = lines.length)
    ∧ ∀ raw ∈ lines,
        (((⟨f, procLine ⟨ic, false, wl⟩ raw⟩ : MatchRec)
            ∈ (scanFile f lines pattern ⟨ic, false, wl⟩).1)
          ↔ ¬((⟨f, procLine ⟨ic, false, wl⟩ raw⟩ : MatchRec)
            ∈ (scanFile f lines pattern ⟨ic, true, wl⟩).1)) := by
  have hvF : ∀ raw ∈ lines,
      decideLine ⟨ic, false, wl⟩ (foldedPattern ⟨ic, false, wl⟩ pattern) raw
          = true →
      utf8Valid (procLine ⟨ic, false, wl⟩ raw) = true :=
    fun raw hr _ => hv raw hr
  have hvT : ∀ raw ∈ lines,
      decideLine ⟨ic, true, wl⟩ (foldedPattern ⟨ic, true, wl⟩ pattern) raw
          = true →
      utf8Valid (procLine ⟨ic, true, wl⟩ raw) = true :=
    fun raw hr _ => hv raw hr
  have hq : foldedPattern ⟨ic, true, wl⟩ pattern
      = foldedPattern ⟨ic, false, wl⟩ pattern := rfl
  have hp : procLine ⟨ic, true, wl⟩ = procLine ⟨ic, false, wl⟩ := rfl
  have hfilter : lines.filter
        (decideLine ⟨ic, true, wl⟩ (foldedPattern ⟨ic, false, wl⟩ pattern))
      = lines.filter (fun x =>
          !(decideLine ⟨ic, false, wl⟩ (foldedPattern ⟨ic, false, wl⟩ pattern) x)) :=
    List.filter_congr (fun x _ => decideLine_invert ic wl _ x)
  rw [scanFile_char _ f lines pattern hvF, scanFile_char _ f lines pattern hvT,
    hq, hp, hfilter]
  constructor
  · simp only [List.length_map]
    exact length_filter_not_aux _ lines
  · intro raw hraw
    have hdF : ∀ x, procLine ⟨ic, false, wl⟩ x = procLine ⟨ic, false, wl⟩ raw →
        decideLine ⟨ic, false, wl⟩ (foldedPattern ⟨ic, false, wl⟩ pattern) x
          = decideLine ⟨ic, false, wl⟩ (foldedPattern ⟨ic, false, wl⟩ pattern) raw := by
      intro x hx
      unfold decideLine
      rw [hx]
    rw [mem_scan_records_general ⟨ic, false, wl⟩ f _ lines raw hraw hdF,
      mem_scan_records_general ⟨ic, false, wl⟩ f _ lines raw hraw
        (fun x hx => by rw [hdF x hx])]
    cases hdec : decideLine ⟨ic, false, wl⟩
        (foldedPattern ⟨ic, false, wl⟩ pattern) raw <;> simp [hdec]

theorem scanFile_invert_complement_witness :
    (∀ raw ∈ [[97], [98]],
      utf8Valid (procLine ⟨false, false, false⟩ raw) = true) ∧
    (((scanFile "f" [[97], [98]] [97] ⟨false, false, false⟩).1.length
        + (scanFile "f" [[97], [98]] [97] ⟨false, true, false⟩).1.length
      = [[97], [98]].length)
    ∧ ∀ raw ∈ [[97], [98]],
        (((⟨"f", procLine ⟨false, false, false⟩ raw⟩ : MatchRec)
            ∈ (scanFile "f" [[97], [98]] [97] ⟨false, false, false⟩).1)
          ↔ ¬((⟨"f", procLine ⟨false, false, false⟩ raw⟩ : MatchRec)
            ∈ (scanFile "f" [[97], [98]] [97] ⟨false, true, false⟩).1))) :=
  ⟨by decide, scanFile_invert_complement false false "f" [97] [[97], [98]]
    (by decide)⟩


theorem reachable_file_cons (dirPath name : String) (rest : List FSEntry)
    (p : String) :
    ReachableRegular dirPath (.file name :: rest) p
      ↔ (p = pathJoin dirPath name ∨ ReachableRegular dirPath rest p) := by
  constructor
  · intro h
    cases h with
    | here _ nm _ hmem =>
      rcases List.mem_cons.mp hmem with he | hr
      · injection he with h1
        subst h1
        exact Or.inl rfl
      · exact Or.inr (.here _ _ _ hr)
    | deeper _ nm sub _ _ hmem hre =>
      rcases List.mem_cons.mp hmem with he | hr
      · exact absurd he (by simp)
      · exact Or.inr (.deeper _ _ _ _ _ hr hre)
  · rintro (rfl | hr)
    · exact .here _ _ _ (List.mem_cons_self _ _)
    · cases hr with
      | here _ nm _ hmem => exact .here _ _ _ (List.mem_cons_of_mem _ hmem)
      | deeper _ nm sub _ _ hmem hre =>
        exact .deeper _ _ _ _ _ (List.mem_cons_of_mem _ hmem) hre

theorem reachable_dir_cons (dirPath name : String) (readable : Bool)
    (sub rest : List FSEntry) (p : String) :
    ReachableRegular dirPath (.dir name readable sub :: rest) p
      ↔ ((readable = true ∧ ReachableRegular (pathJoin dirPath name) sub p)
          ∨ ReachableRegular dirPath rest p) := by
  constructor
  · intro h
    cases h with
    | here _ nm _ hmem =>
      rcases List.mem_cons.mp hmem with he | hr
      · exact absurd he (by simp)
      · exact Or.inr (.here _ _ _ hr)
    | deeper _ nm sub2 _ _ hmem hre =>
      rcases List.mem_cons.mp hmem with he | hr
      · injection he with h1 h2 h3
        subst h1
        subst h3
        exact Or.inl ⟨h2.symm, hre⟩
      · exact Or.inr (.deeper _ _ _ _ _ hr hre)
  · rintro (⟨rfl, hre⟩ | hr)
    · exact .deeper _ _ _ _ _ (List.mem_cons_self _ _) hre
    · cases hr with
      | here _ nm _ hmem => exact .here _ _ _ (List.mem_cons_of_mem _ hmem)
      | deeper _ nm sub2 _ _ hmem hre =>
        exact .deeper _ _ _ _ _ (List.mem_cons_of_mem _ hmem) hre

theorem reachable_symlink_cons (dirPath name : String) (rest : List FSEntry)
    (p : String) :
    ReachableRegular dirPath (.symlink name :: rest) p
      ↔ ReachableRegular dirPath rest p := by
  constructor
  · intro h
    cases h with
    | here _ nm _ hmem =>
      rcases List.mem_cons.mp hmem with he | hr
      · exact absurd he (by simp)
      · exact .here _ _ _ hr
    | deeper _ nm sub _ _ hmem hre =>
      rcases List.mem_cons.mp hmem with he | hr
      · exact absurd he (by simp)
      · exact .deeper _ _ _ _ _ hr hre
  · intro hr
    cases hr with
    | here _ nm _ hmem => exact .here _ _ _ (List.mem_cons_of_mem _ hmem)
    | deeper _ nm sub _ _ hmem hre =>
      exact .deeper _ _ _ _ _ (List.mem_cons_of_mem _ hmem) hre

theorem reachable_other_cons (dirPath name : String) (rest : List FSEntry)
    (p : String) :
    ReachableRegular dirPath (.other name :: rest) p
      ↔ ReachableRegular dirPath rest p := by
  constructor
  · intro h
    cases h with
    | here _ nm _ hmem =>
      rcases List.mem_cons.mp hmem with he | hr
      · exact absurd he (by simp)
      · exact .here _ _ _ hr
    | deeper _ nm sub _ _ hmem hre =>
      rcases List.mem_cons.mp hmem with he | hr
      · exact absurd he (by simp)
      · exact .deeper _ _ _ _ _ hr hre
  · intro hr
    cases hr with
    | here _ nm _ hmem => exact .here _ _ _ (List.mem_cons_of_mem _ hmem)
    | deeper _ nm sub _ _ hmem hre =>
      exact .deeper _ _ _ _ _ (List.mem_cons_of_mem _ hmem) hre

theorem mem_getFilesInDirList : ∀ (dirPath : String) (recurse : Bool)
    (entries : List FSEntry), recurse = true → ∀ (p : String),
    (p ∈ getFilesInDirList dirPath recurse entries
      ↔ ReachableRegular dirPath entries p) := by
  intro dirPath recurse entries
  induction dirPath, recurse, entries using getFilesInDirList.induct with
  | case1 dirPath recurse =>
    intro _ p
    rw [getFilesInDirList]
    simp only [List.not_mem_nil, false_iff]
    intro h
    cases h <;> simp_all
  | case2 dirPath recurse name rest ih1 =>
    intro hrec p
    subst hrec
    rw [getFilesInDirList, reachable_file_cons, List.mem_cons, ih1 rfl p]
  | case3 dirPath recurse name readable sub rest ih2 ih1 =>
    intro hrec p
    subst hrec
    rw [getFilesInDirList, reachable_dir_cons, List.mem_append, ih1 rfl p]
    cases readable with
    | true => simp [ih2 rfl p]
    | false => simp
  | case4 dirPath recurse name rest ih1 =>
    intro hrec p
    subst hrec
    rw [getFilesInDirList, reachable_symlink_cons, ih1 rfl p]
  | case5 dirPath recurse name rest ih1 =>
    intro hrec p
    subst hrec
    rw [getFilesInDirList, reachable_other_cons, ih1 rfl p]

/-- C6: a directory argument contributes no files when `recurse` is
false; when `recurse` is true and the directory is readable, the resolver
collects exactly the regular files reachable depth-first through readable
subdirectories — symbolic links and other node kinds are skipped and
never followed — and an unreadable directory contributes nothing. -/
theorem resolver_dir_spec (path : String) (rb : Bool) (entries : List FSEntry) :
    resolveItem false ⟨path, .directory rb entries⟩ = ([], [])
    ∧ (rb = false → resolveItem true ⟨path, .directory rb entries⟩ = ([], []))
    ∧ (rb = true → ∀ p : String,
        p ∈ (resolveItem true ⟨path, .directory rb entries⟩).1
          ↔ ReachableRegular path entries p) := by
  refine ⟨rfl, ?_, ?_⟩
  · rintro rfl
    rfl
  · rintro rfl p
    have hshow : (resolveItem true ⟨path, .directory true entries⟩).1
        = getFilesInDirList path true entries := rfl
    rw [hshow]
    exact mem_getFilesInDirList path true entries rfl p

theorem resolver_dir_spec_witness :
    (resolveItem false ⟨"d", .directory true
        [.file "a.txt", .dir "sub" true [.file "b.txt"], .symlink "ln"]⟩
      = ([], []))
    ∧ (true = false → resolveItem true ⟨"d", .directory true
        [.file "a.txt", .dir "sub" true [.file "b.txt"], .symlink "ln"]⟩
      = ([], []))
    ∧ (true = true → ∀ p : String,
        p ∈ (resolveItem true ⟨"d", .directory true
            [.file "a.txt", .dir "sub" true [.file "b.txt"], .symlink "ln"]⟩).1
          ↔ ReachableRegular "d"
              [.file "a.txt", .dir "sub" true [.file "b.txt"], .symlink "ln"] p) :=
  resolver_dir_spec "d" true
    [.file "a.txt", .dir "sub" true [.file "b.txt"], .symlink "ln"]

/-- C4: the program exits with code 2 exactly on a usage error (fewer
than one positional argument), in which case it returns before any
scanning; otherwise it exits 0 iff at least one match record was
reported and 1 iff the run completed with zero match records. -/
theorem exit_code_spec (globOf : String → GlobOutcome) (recurse : Bool)
    (cfg : MatchConfig) (env : String → Option (List (List Nat)))
    (stdinLines : List (List Nat)) (pattern : List Nat)
    (fileArgs : List String) :
    grepMain none globOf recurse cfg env stdinLines = .usage
    ∧ exitCode (grepMain none globOf recurse cfg env stdinLines) = 2
    ∧ (∀ pa : Option (List Nat × List String),
        exitCode (grepMain pa globOf recurse cfg env stdinLines) = 2 ↔ pa = none)
    ∧ (exitCode (grepMain (some (pattern, fileArgs)) globOf recurse cfg env
          stdinLines) = 0
        ↔ runRecords (grepMain (some (pattern, fileArgs)) globOf recurse cfg env
            stdinLines) ≠ [])
    ∧ (exitCode (grepMain (some (pattern, fileArgs)) globOf recurse cfg env
          stdinLines) = 1
        ↔ runRecords (grepMain (some (pattern, fileArgs)) globOf recurse cfg env
            stdinLines) = []) := by
  refine ⟨rfl, rfl, ?_, ?_, ?_⟩
  · intro pa
    cases pa with
    | none => simp [grepMain, exitCode]
    | some a =>
      obtain ⟨pat, fa⟩ := a
      simp only [grepMain, exitCode]
      constructor
      · intro h
        split at h <;> split at h <;> simp_all
      · intro h
        simp at h
  · simp only [grepMain, exitCode, runRecords]
    split <;> rename_i hsplit <;> simp_all [List.isEmpty_iff]
  · simp only [grepMain, exitCode, runRecords]
    split <;> rename_i hsplit <;> simp_all [List.isEmpty_iff]

/-- C8 (amended): when a source file cannot be opened, grep.go's `main`
silently skips it (`continue` — no stderr diagnostic is produced for the
open error): the source contributes zero match records and the run
continues with the remaining sources, affecting the exit code only
through the matches-found distinction. -/
theorem open_error_skipped (env : String → Option (List (List Nat)))
    (cfg : MatchConfig) (pattern : List Nat) (f : String) (rest : List String)
    (h : env f = none) :
    runFiles env cfg pattern (f :: rest) = runFiles env cfg pattern rest := by
  rw [runFiles, h]
  simp

theorem open_error_skipped_witness :
    (fun _ : String => (none : Option (List (List Nat)))) "x" = none
    ∧ runFiles (fun _ => none) ⟨false, false, false⟩ [97] ["x"]
      = runFiles (fun _ => none) ⟨false, false, false⟩ [97] [] :=
  ⟨rfl, open_error_skipped (fun _ => none) ⟨false, false, false⟩ [97] "x" [] rfl⟩

/-- C8 counterexample: glob arguments resolve to files `a` and `b`;
opening `a` fails while `b` opens and matches.  The completed run carries
only `b`'s record and an empty diagnostic stream — no diagnostic is ever
emitted for the failed open of `a`, contradicting the claim that such
errors are reported to standard error. -/
theorem open_error_counterexample :
    grepMain (some ([97], ["ga", "gb"]))
      (fun g => if g = "ga" then .found [⟨"a", .regular⟩]
                else .found [⟨"b", .regular⟩])
      false ⟨false, false, false⟩
      (fun f => if f = "b" then some [[97]] else none)
      []
      = .ran [⟨"b", [97]⟩] [] := by
  decide

/-- C10: when file arguments are supplied but every one of them fails to
resolve to a regular file, the resolved list is empty and the program
falls back to scanning standard input as its single source, exactly as if
no file arguments had been supplied. -/
theorem stdin_fallback (globOf : String → GlobOutcome) (recurse : Bool)
    (cfg : MatchConfig) (env : String → Option (List (List Nat)))
    (stdinLines : List (List Nat)) (pattern : List Nat) (fileArgs : List String)
    (hne : fileArgs ≠ [])
    (hempty : (inputFiles recurse (fileArgs.map (fun g => (g, globOf g)))).1 = []) :
    runRecords (grepMain (some (pattern, fileArgs)) globOf recurse cfg env
        stdinLines)
      = (scanFile "stdin" stdinLines pattern cfg).1
    ∧ runRecords (grepMain (some (pattern, fileArgs)) globOf recurse cfg env
        stdinLines)
      = runRecords (grepMain (some (pattern, [])) globOf recurse cfg env
          stdinLines) := by
  simp only [grepMain, runRecords, hempty]
  simp [inputFiles, concatPairs]

theorem stdin_fallback_witness :
    ((["nope"] : List String) ≠ [])
    ∧ ((inputFiles false (["nope"].map
        (fun g => (g, (fun _ : String => GlobOutcome.noMatch) g)))).1 = [])
    ∧ (runRecords (grepMain (some ([97], ["nope"]))
          (fun _ => GlobOutcome.noMatch) false ⟨false, false, false⟩
          (fun _ => none) [[97]])
        = (scanFile "stdin" [[97]] [97] ⟨false, false, false⟩).1
      ∧ runRecords (grepMain (some ([97], ["nope"]))
          (fun _ => GlobOutcome.noMatch) false ⟨false, false, false⟩
          (fun _ => none) [[97]])
        = runRecords (grepMain (some ([97], []))
            (fun _ => GlobOutcome.noMatch) false ⟨false, false, false⟩
            (fun _ => none) [[97]])) :=
  ⟨by decide, by decide,
    stdin_fallback (fun _ => GlobOutcome.noMatch) false ⟨false, false, false⟩
      (fun _ => none) [[97]] [97] ["nope"] (by decide) (by decide)⟩

end Grep
